import Mathlib

/-!
Verification of the runtime environment-variable injection mechanism of a
dockerized Vite + React frontend.  The development embeds three components:

* the Vite build-time HTML transform (`replacePlugin.transformIndexHtml` in
  `vite.config.ts`), which replaces the placeholder comment by a script tag;
* the startup generator (`start.sh`), which writes `front.env.js` from the
  whitelisted environment variables and then starts nginx;
* the runtime accessors (`src/config/constants.ts`), which resolve each
  configuration key with nullish-coalescing precedence.

HTML documents and file contents are modelled as `List Char`.
-/

/-! ### Basic string machinery -/

/-- Prefix test: `startsWithL pat s` is true iff `pat` is a prefix of `s` (char lists). -/
def startsWithL : List Char → List Char → Bool
  | [], _ => true
  | _ :: _, [] => false
  | p :: ps, c :: cs => p == c && startsWithL ps cs

/-- Number of positions of `s` at which `pat` occurs (occurrences may overlap). -/
def countOccs (pat : List Char) : List Char → Nat
  | [] => 0
  | c :: cs => (if startsWithL pat (c :: cs) = true then 1 else 0) + countOccs pat cs

/-- JavaScript `String.prototype.replace` with a string pattern: replaces only
the first occurrence of `pat`, and returns the input unchanged when `pat` does
not occur. -/
def replaceFirst (pat rep : List Char) : List Char → List Char
  | [] => if pat.isEmpty then rep else []
  | c :: cs =>
    if startsWithL pat (c :: cs) = true then rep ++ (c :: cs).drop pat.length
    else c :: replaceFirst pat rep cs

theorem startsWithL_of_append (pat t : List Char) : startsWithL pat (pat ++ t) = true := by
  induction pat with
  | nil => rfl
  | cons p ps ih => simp [startsWithL, ih]

theorem exists_of_startsWithL {pat : List Char} :
    ∀ {s : List Char}, startsWithL pat s = true → ∃ t, s = pat ++ t := by
  induction pat with
  | nil => intro s _; exact ⟨s, rfl⟩
  | cons p ps ih =>
    intro s h
    cases s with
    | nil => simp [startsWithL] at h
    | cons c cs =>
      simp only [startsWithL, Bool.and_eq_true, beq_iff_eq] at h
      obtain ⟨t, ht⟩ := ih h.2
      exact ⟨t, by simp [h.1, ht]⟩

theorem startsWithL_of_short {pat : List Char} :
    ∀ {s : List Char}, s.length < pat.length → startsWithL pat s = false := by
  induction pat with
  | nil => intro s h; simp at h
  | cons p ps ih =>
    intro s h
    cases s with
    | nil => rfl
    | cons c cs =>
      simp only [List.length_cons, Nat.add_lt_add_iff_right] at h
      simp [startsWithL, ih h]

theorem startsWithL_append_right (pat : List Char) :
    ∀ (s b : List Char), pat.length ≤ s.length →
      startsWithL pat (s ++ b) = startsWithL pat s := by
  induction pat with
  | nil => intro s b _; rfl
  | cons p ps ih =>
    intro s b h
    cases s with
    | nil => simp at h
    | cons c cs =>
      simp only [List.length_cons, Nat.add_le_add_iff_right] at h
      simp [startsWithL, ih cs b h]

theorem startsWithL_rev (x : List Char) :
    ∀ {pat b : List Char}, startsWithL pat (x ++ b) = true → x.length < pat.length →
      startsWithL x pat = true := by
  induction x with
  | nil => intro pat b _ _; rfl
  | cons c cs ih =>
    intro pat b h hlen
    cases pat with
    | nil => simp at hlen
    | cons p ps =>
      simp only [List.cons_append, startsWithL, Bool.and_eq_true, beq_iff_eq] at h ⊢
      simp only [List.length_cons, Nat.add_lt_add_iff_right] at hlen
      exact ⟨h.1.symm, ih h.2 hlen⟩

theorem append_eq_of_short {b pat q : List Char} :
    ∀ (x : List Char), x ++ b = pat ++ q → x.length < pat.length →
      b = pat.drop x.length ++ q := by
  intro x
  induction x generalizing pat with
  | nil => intro h _; simpa using h
  | cons c cs ih =>
    intro h hlen
    cases pat with
    | nil => simp at hlen
    | cons p ps =>
      simp only [List.cons_append, List.cons.injEq] at h
      simp only [List.length_cons, Nat.add_lt_add_iff_right] at hlen
      exact ih h.2 hlen

theorem drop_length_append (a b : List Char) : (a ++ b).drop a.length = b := by
  induction a with
  | nil => rfl
  | cons c cs ih => exact ih

/-! ### Occurrence counting: append decomposition -/

/-- Number of occurrences of `pat` in `a ++ b` that start inside `a` but do not
fit entirely within `a` (boundary-crossing occurrences). -/
def countCross (pat : List Char) : List Char → List Char → Nat
  | [], _ => 0
  | c :: a, b =>
    (if a.length + 1 < pat.length ∧ startsWithL pat (c :: (a ++ b)) = true then 1 else 0) +
      countCross pat a b

theorem countOccs_append (pat : List Char) :
    ∀ (a b : List Char),
      countOccs pat (a ++ b) = countOccs pat a + countCross pat a b + countOccs pat b := by
  intro a b
  induction a with
  | nil => simp [countOccs, countCross]
  | cons c a ih =>
    have hgoal : countOccs pat ((c :: a) ++ b)
        = (if startsWithL pat (c :: (a ++ b)) = true then 1 else 0) + countOccs pat (a ++ b) :=
      rfl
    have h1 : countOccs pat (c :: a)
        = (if startsWithL pat (c :: a) = true then 1 else 0) + countOccs pat a := rfl
    have h2 : countCross pat (c :: a) b
        = (if a.length + 1 < pat.length ∧ startsWithL pat (c :: (a ++ b)) = true then 1 else 0)
            + countCross pat a b := rfl
    rw [hgoal, h1, h2, ih]
    by_cases hl : pat.length ≤ a.length + 1
    · have hs : startsWithL pat (c :: (a ++ b)) = startsWithL pat (c :: a) := by
        have := startsWithL_append_right pat (c :: a) b (by simp; omega)
        simpa using this
      have hcond : ¬ (a.length + 1 < pat.length ∧ startsWithL pat (c :: a) = true) :=
        fun h => absurd h.1 (by omega)
      rw [hs, if_neg hcond]
      omega
    · have hshort : startsWithL pat (c :: a) = false :=
        startsWithL_of_short (by simp; omega)
      rw [hshort]
      simp only [Bool.false_eq_true, if_false]
      by_cases hm : startsWithL pat (c :: (a ++ b)) = true
      · rw [if_pos hm, if_pos (And.intro (by omega) hm)]
        omega
      · rw [if_neg hm, if_neg (fun h => hm h.2)]
        omega

theorem countCross_eq_zero_left (pat : List Char) :
    ∀ (a b : List Char),
      (∀ k, 0 < k → k < pat.length → startsWithL (pat.drop k) b = false) →
      countCross pat a b = 0 := by
  intro a b h
  induction a with
  | nil => rfl
  | cons c a ih =>
    have hhead : ¬ (a.length + 1 < pat.length ∧ startsWithL pat (c :: (a ++ b)) = true) := by
      rintro ⟨hlen, hsw⟩
      obtain ⟨q, hq⟩ := exists_of_startsWithL hsw
      have hb : b = pat.drop (c :: a).length ++ q :=
        append_eq_of_short (c :: a) (by simpa using hq) (by simp; omega)
      have htrue : startsWithL (pat.drop (a.length + 1)) b = true := by
        rw [hb]
        simpa using startsWithL_of_append _ _
      have hfalse := h (a.length + 1) (by omega) hlen
      rw [htrue] at hfalse
      exact Bool.noConfusion hfalse
    have hg : countCross pat (c :: a) b
        = (if a.length + 1 < pat.length ∧ startsWithL pat (c :: (a ++ b)) = true then 1 else 0)
            + countCross pat a b := rfl
    rw [hg, if_neg hhead, ih]

/-- No nonempty proper suffix of `a` that is shorter than `pat` is a prefix of
`pat`; this rules out occurrences of `pat` crossing the right boundary of `a`. -/
def noCrossTail (pat : List Char) : List Char → Bool
  | [] => true
  | c :: a =>
    (if a.length + 1 < pat.length ∧ startsWithL (c :: a) pat = true then false else true)
      && noCrossTail pat a

theorem countCross_eq_zero_of_noCrossTail (pat : List Char) :
    ∀ (a b : List Char), noCrossTail pat a = true → countCross pat a b = 0 := by
  intro a b h
  induction a with
  | nil => rfl
  | cons c a ih =>
    have hsplit :
        (if a.length + 1 < pat.length ∧ startsWithL (c :: a) pat = true then false else true)
            = true ∧ noCrossTail pat a = true := by
      simpa [noCrossTail, Bool.and_eq_true] using h
    have hcond : ¬ (a.length + 1 < pat.length ∧ startsWithL (c :: a) pat = true) := by
      intro hc
      have := hsplit.1
      rw [if_pos hc] at this
      exact Bool.noConfusion this
    have hhead : ¬ (a.length + 1 < pat.length ∧ startsWithL pat (c :: (a ++ b)) = true) := by
      rintro ⟨hlen, hsw⟩
      refine hcond ⟨hlen, ?_⟩
      exact startsWithL_rev (c :: a) (by simpa using hsw) (by simp; omega)
    have hg : countCross pat (c :: a) b
        = (if a.length + 1 < pat.length ∧ startsWithL pat (c :: (a ++ b)) = true then 1 else 0)
            + countCross pat a b := rfl
    rw [hg, if_neg hhead, ih hsplit.2]

/-! ### Structure of `replaceFirst` -/

theorem replaceFirst_of_no_occurrence (pat rep : List Char) (hp : pat ≠ []) :
    ∀ (s : List Char), countOccs pat s = 0 → replaceFirst pat rep s = s := by
  intro s
  induction s with
  | nil =>
    intro _
    cases pat with
    | nil => exact absurd rfl hp
    | cons p ps => rfl
  | cons c cs ih =>
    intro h
    have h0 : (if startsWithL pat (c :: cs) = true then 1 else 0) + countOccs pat cs = 0 := h
    have hbit : ¬ startsWithL pat (c :: cs) = true := by
      intro hb
      rw [if_pos hb] at h0
      omega
    have hg : replaceFirst pat rep (c :: cs)
        = if startsWithL pat (c :: cs) = true then rep ++ (c :: cs).drop pat.length
          else c :: replaceFirst pat rep cs := rfl
    rw [hg, if_neg hbit, ih (by rw [if_neg hbit] at h0; omega)]

theorem replaceFirst_found (pat rep : List Char) :
    ∀ (s : List Char), 0 < countOccs pat s →
      ∃ p t, s = p ++ pat ++ t ∧ replaceFirst pat rep s = p ++ rep ++ t ∧
        countOccs pat p = 0 ∧ countCross pat p (pat ++ t) = 0 := by
  intro s
  induction s with
  | nil => intro h; simp [countOccs] at h
  | cons c cs ih =>
    intro h
    have hg : replaceFirst pat rep (c :: cs)
        = if startsWithL pat (c :: cs) = true then rep ++ (c :: cs).drop pat.length
          else c :: replaceFirst pat rep cs := rfl
    by_cases hb : startsWithL pat (c :: cs) = true
    · obtain ⟨t, ht⟩ := exists_of_startsWithL hb
      refine ⟨[], t, by simpa using ht, ?_, rfl, rfl⟩
      rw [hg, if_pos hb, ht, drop_length_append]
      simp
    · have h0 : (if startsWithL pat (c :: cs) = true then 1 else 0) + countOccs pat cs
          = countOccs pat (c :: cs) := rfl
      rw [if_neg hb] at h0
      obtain ⟨p, t, hs, hr, hcp, hcc⟩ := ih (by omega)
      have hdecomp : c :: cs = (c :: p) ++ (pat ++ t) := by simp [hs]
      have hbF : startsWithL pat (c :: cs) = false := by simpa using hb
      refine ⟨c :: p, t, by simp [hs], ?_, ?_, ?_⟩
      · rw [hg, if_neg hb, hr]
        simp
      · have hbitp : startsWithL pat (c :: p) = false := by
          by_cases hl : pat.length ≤ p.length + 1
          · have hiff := startsWithL_append_right pat (c :: p) (pat ++ t)
              (by simp; omega)
            rw [← hdecomp] at hiff
            rw [← hiff]
            exact hbF
          · exact startsWithL_of_short (by simp; omega)
        have hgo : countOccs pat (c :: p)
            = (if startsWithL pat (c :: p) = true then 1 else 0) + countOccs pat p := rfl
        rw [hgo, hbitp, hcp]
        simp
      · have hgo : countCross pat (c :: p) (pat ++ t)
            = (if p.length + 1 < pat.length ∧
                  startsWithL pat (c :: (p ++ (pat ++ t))) = true then 1 else 0)
                + countCross pat p (pat ++ t) := rfl
        have harg : c :: (p ++ (pat ++ t)) = c :: cs := by
          simp [hs]
        have hcondF : ¬ (p.length + 1 < pat.length ∧
            startsWithL pat (c :: (p ++ (pat ++ t))) = true) := by
          rintro ⟨_, hsw⟩
          rw [harg] at hsw
          exact hb hsw
        rw [hgo, if_neg hcondF, hcc]

/-! ### Build-time transform (vite.config.ts, `replacePlugin`) -/

/-- Placeholder marker in `index.html`. -/
def envPlaceholder : List Char := "<!-- ENV -->".data

/-- Script reference inserted by the transform. -/
def scriptTag : List Char := "<script src=\"./config/front.env.js\"></script>".data

/-- The `transformIndexHtml` hook from `vite.config.ts`:
`html.replace("<!-- ENV -->", `<script src="./config/front.env.js"></script>`)`. -/
def transformIndexHtml (html : List Char) : List Char :=
  replaceFirst envPlaceholder scriptTag html

theorem envPlaceholder_length : envPlaceholder.length = 12 := by decide

theorem scriptTag_length : scriptTag.length = 45 := by decide

theorem env_drop_no_tag :
    ∀ k, k < 12 → startsWithL (envPlaceholder.drop k) scriptTag = false := by decide

theorem tag_drop_no_self :
    ∀ k, k < 45 → 0 < k → startsWithL (scriptTag.drop k) scriptTag = false := by decide

theorem countCross_env_into_tag (p t : List Char) :
    countCross envPlaceholder p (scriptTag ++ t) = 0 := by
  apply countCross_eq_zero_left
  intro k hk0 hk1
  rw [envPlaceholder_length] at hk1
  have hlen : (envPlaceholder.drop k).length ≤ scriptTag.length := by
    rw [List.length_drop, envPlaceholder_length, scriptTag_length]
    omega
  rw [startsWithL_append_right _ _ t hlen]
  exact env_drop_no_tag k hk1

theorem countCross_tag_into_tag (p t : List Char) :
    countCross scriptTag p (scriptTag ++ t) = 0 := by
  apply countCross_eq_zero_left
  intro k hk0 hk1
  rw [scriptTag_length] at hk1
  have hlen : (scriptTag.drop k).length ≤ scriptTag.length := by
    rw [List.length_drop]
    omega
  rw [startsWithL_append_right _ _ t hlen]
  exact tag_drop_no_self k hk1 hk0

/-- C7: for HTML input text not containing the placeholder marker, the build-time
transform returns the input unchanged (the transform is total, so it cannot
throw). -/
theorem transform_no_placeholder (html : List Char)
    (h : countOccs envPlaceholder html = 0) :
    transformIndexHtml html = html :=
  replaceFirst_of_no_occurrence _ _ (by decide) html h

theorem transform_no_placeholder_witness :
    countOccs envPlaceholder ("<html><body></body></html>".data) = 0 ∧
      transformIndexHtml ("<html><body></body></html>".data)
        = "<html><body></body></html>".data :=
  ⟨by decide, transform_no_placeholder _ (by decide)⟩

/-- C4 fails as stated: this input contains the placeholder exactly once, yet the
transform output contains the script reference twice, because the input already
contained a copy of the script reference. -/
theorem transform_single_placeholder_counterexample :
    countOccs envPlaceholder (scriptTag ++ envPlaceholder) = 1 ∧
      ¬ countOccs scriptTag (transformIndexHtml (scriptTag ++ envPlaceholder)) = 1 := by
  constructor
  · decide
  · decide

/-- C4 (amended): for all HTML input text containing the placeholder marker
exactly once and containing no occurrence of the script reference, the
transform output contains exactly one script reference to
`./config/front.env.js` and zero occurrences of the placeholder marker. -/
theorem transform_single_placeholder (html : List Char)
    (h1 : countOccs envPlaceholder html = 1)
    (h2 : countOccs scriptTag html = 0) :
    countOccs scriptTag (transformIndexHtml html) = 1 ∧
      countOccs envPlaceholder (transformIndexHtml html) = 0 := by
  obtain ⟨p, t, hs, hr, hcp, hcc⟩ :=
    replaceFirst_found envPlaceholder scriptTag html (by omega)
  have hs' : html = p ++ (envPlaceholder ++ t) := by simpa [List.append_assoc] using hs
  have hr' : transformIndexHtml html = p ++ (scriptTag ++ t) := by
    simpa [List.append_assoc] using hr
  have e1 : countOccs envPlaceholder html
      = countOccs envPlaceholder p + countCross envPlaceholder p (envPlaceholder ++ t)
        + countOccs envPlaceholder (envPlaceholder ++ t) := by
    rw [hs']
    exact countOccs_append _ _ _
  have e2 : countOccs envPlaceholder (envPlaceholder ++ t)
      = countOccs envPlaceholder envPlaceholder
        + countCross envPlaceholder envPlaceholder t + countOccs envPlaceholder t :=
    countOccs_append _ _ _
  have e3 : countCross envPlaceholder envPlaceholder t = 0 :=
    countCross_eq_zero_of_noCrossTail _ _ _ (by decide)
  have e4 : countOccs envPlaceholder envPlaceholder = 1 := by decide
  have henvt : countOccs envPlaceholder t = 0 := by
    rw [e1, e2, e3, e4] at h1
    omega
  have s1 : countOccs scriptTag html
      = countOccs scriptTag p + countCross scriptTag p (envPlaceholder ++ t)
        + countOccs scriptTag (envPlaceholder ++ t) := by
    rw [hs']
    exact countOccs_append _ _ _
  have s2 : countOccs scriptTag (envPlaceholder ++ t)
      = countOccs scriptTag envPlaceholder
        + countCross scriptTag envPlaceholder t + countOccs scriptTag t :=
    countOccs_append _ _ _
  have htagp : countOccs scriptTag p = 0 := by
    rw [s1, s2] at h2
    omega
  have htagt : countOccs scriptTag t = 0 := by
    rw [s1, s2] at h2
    omega
  have r1 : countOccs scriptTag (transformIndexHtml html)
      = countOccs scriptTag p + countCross scriptTag p (scriptTag ++ t)
        + countOccs scriptTag (scriptTag ++ t) := by
    rw [hr']
    exact countOccs_append _ _ _
  have r2 : countOccs scriptTag (scriptTag ++ t)
      = countOccs scriptTag scriptTag
        + countCross scriptTag scriptTag t + countOccs scriptTag t :=
    countOccs_append _ _ _
  have r3 : countCross scriptTag scriptTag t = 0 :=
    countCross_eq_zero_of_noCrossTail _ _ _ (by decide)
  have r4 : countOccs scriptTag scriptTag = 1 := by decide
  have q1 : countOccs envPlaceholder (transformIndexHtml html)
      = countOccs envPlaceholder p + countCross envPlaceholder p (scriptTag ++ t)
        + countOccs envPlaceholder (scriptTag ++ t) := by
    rw [hr']
    exact countOccs_append _ _ _
  have q2 : countOccs envPlaceholder (scriptTag ++ t)
      = countOccs envPlaceholder scriptTag
        + countCross envPlaceholder scriptTag t + countOccs envPlaceholder t :=
    countOccs_append _ _ _
  have q3 : countCross envPlaceholder scriptTag t = 0 :=
    countCross_eq_zero_of_noCrossTail _ _ _ (by decide)
  have q4 : countOccs envPlaceholder scriptTag = 0 := by decide
  constructor
  · rw [r1, r2, r3, r4, htagp, htagt, countCross_tag_into_tag]
  · rw [q1, q2, q3, q4, hcp, henvt, countCross_env_into_tag]

theorem transform_single_placeholder_witness :
    countOccs envPlaceholder ("<html><!-- ENV --></html>".data) = 1 ∧
      countOccs scriptTag ("<html><!-- ENV --></html>".data) = 0 ∧
      (countOccs scriptTag (transformIndexHtml ("<html><!-- ENV --></html>".data)) = 1 ∧
        countOccs envPlaceholder (transformIndexHtml ("<html><!-- ENV --></html>".data)) = 0) :=
  ⟨by decide, by decide, transform_single_placeholder _ (by decide) (by decide)⟩

/-- C10: for HTML input text containing the placeholder more than once, the
transform replaces only the first occurrence: the input splits as
`p ++ placeholder ++ t` with the first occurrence at the split, the output is
`p ++ scriptTag ++ t` with the suffix `t` carried over verbatim, and the output
still contains all the remaining occurrences of the placeholder. -/
theorem transform_multiple_placeholders (html : List Char)
    (h : 2 ≤ countOccs envPlaceholder html) :
    ∃ p t, html = p ++ envPlaceholder ++ t ∧
      transformIndexHtml html = p ++ scriptTag ++ t ∧
      countOccs envPlaceholder t = countOccs envPlaceholder html - 1 ∧
      countOccs envPlaceholder (transformIndexHtml html)
        = countOccs envPlaceholder html - 1 := by
  obtain ⟨p, t, hs, hr, hcp, hcc⟩ :=
    replaceFirst_found envPlaceholder scriptTag html (by omega)
  have hs' : html = p ++ (envPlaceholder ++ t) := by simpa [List.append_assoc] using hs
  have hr' : transformIndexHtml html = p ++ (scriptTag ++ t) := by
    simpa [List.append_assoc] using hr
  have e1 : countOccs envPlaceholder html
      = countOccs envPlaceholder p + countCross envPlaceholder p (envPlaceholder ++ t)
        + countOccs envPlaceholder (envPlaceholder ++ t) := by
    rw [hs']
    exact countOccs_append _ _ _
  have e2 : countOccs envPlaceholder (envPlaceholder ++ t)
      = countOccs envPlaceholder envPlaceholder
        + countCross envPlaceholder envPlaceholder t + countOccs envPlaceholder t :=
    countOccs_append _ _ _
  have e3 : countCross envPlaceholder envPlaceholder t = 0 :=
    countCross_eq_zero_of_noCrossTail _ _ _ (by decide)
  have e4 : countOccs envPlaceholder envPlaceholder = 1 := by decide
  have henvt : countOccs envPlaceholder t = countOccs envPlaceholder html - 1 := by
    rw [e1, e2, e3, e4, hcp, hcc]
    omega
  refine ⟨p, t, hs, hr, henvt, ?_⟩
  have q1 : countOccs envPlaceholder (transformIndexHtml html)
      = countOccs envPlaceholder p + countCross envPlaceholder p (scriptTag ++ t)
        + countOccs envPlaceholder (scriptTag ++ t) := by
    rw [hr']
    exact countOccs_append _ _ _
  have q2 : countOccs envPlaceholder (scriptTag ++ t)
      = countOccs envPlaceholder scriptTag
        + countCross envPlaceholder scriptTag t + countOccs envPlaceholder t :=
    countOccs_append _ _ _
  have q3 : countCross envPlaceholder scriptTag t = 0 :=
    countCross_eq_zero_of_noCrossTail _ _ _ (by decide)
  have q4 : countOccs envPlaceholder scriptTag = 0 := by decide
  rw [q1, q2, q3, q4, hcp, henvt, countCross_env_into_tag]
  omega

theorem transform_multiple_placeholders_witness :
    2 ≤ countOccs envPlaceholder ("<!-- ENV -->mid<!-- ENV -->".data) ∧
      (∃ p t, "<!-- ENV -->mid<!-- ENV -->".data = p ++ envPlaceholder ++ t ∧
        transformIndexHtml ("<!-- ENV -->mid<!-- ENV -->".data) = p ++ scriptTag ++ t ∧
        countOccs envPlaceholder t
          = countOccs envPlaceholder ("<!-- ENV -->mid<!-- ENV -->".data) - 1 ∧
        countOccs envPlaceholder (transformIndexHtml ("<!-- ENV -->mid<!-- ENV -->".data))
          = countOccs envPlaceholder ("<!-- ENV -->mid<!-- ENV -->".data) - 1) :=
  ⟨by decide, transform_multiple_placeholders _ (by decide)⟩

/-! ### Startup generator (start.sh) -/

/-- Whitelist from start.sh: `ENV_VARS="STAGE API_URL"`. -/
def envVarsList : List String := ["STAGE", "API_URL"]

/-- Split a character list at newlines, the way line-based tools read text. -/
def splitLines : List Char → List (List Char)
  | [] => [[]]
  | c :: cs =>
    if c = '\n' then [] :: splitLines cs
    else
      match splitLines cs with
      | [] => [[c]]
      | l :: ls => (c :: l) :: ls

/-- Text printed by `env`: one `NAME=VALUE` entry per variable, each terminated
by a newline.  A value containing a newline therefore spills onto further
lines of this text. -/
def envText (env : List (String × String)) : List Char :=
  (env.map (fun kv => kv.fst.data ++ '=' :: (kv.snd.data ++ ['\n']))).flatten

/-- The lines of the `env` listing exactly as `grep` scans them (the final
empty line after the last newline is not a line). -/
def envOutputLines (env : List (String × String)) : List (List Char) :=
  (splitLines (envText env)).dropLast

/-- One pipeline `grep -E "^$prefix" | awk -F= ...` over the `env` listing:
keep the lines that start with the (literal) whitelist entry and take each
matched line's first `=`-separated field.  This is line-based, not name-based:
an embedded newline in any variable's value can contribute extra matched
lines. -/
def grepAwkNames (w : List Char) (lines : List (List Char)) : List (List Char) :=
  (lines.filter (fun l => startsWithL w l)).map
    (fun l => l.takeWhile (fun c => !(c == '=')))

/-- Names iterated by `for prefix in $ENV_VARS; for var in $(env | grep -E
"^$prefix" | awk -F= ...)`: the grep/awk pipeline per whitelist entry, in
whitelist order, over the line-based `env` listing.  The loop's IFS word
splitting of the substitution output is the identity on the newline-free,
identifier-like names covered by the theorems below and is not modelled
beyond the per-line split. -/
def selectedNames (env : List (String × String)) : List String :=
  (envVarsList.map
    (fun w => (grepAwkNames w.data (envOutputLines env)).map String.mk)).flatten

/-- Value of `value=$(eval echo "\$$var")`: the variable's value looked up by
name, empty for an unset name (as for a key injected by an embedded newline).
Because `eval` re-expands `$var` unquoted, on a general value the shell would
word-split and pathname-expand the expansion, and `echo` would swallow an
option-like first word or interpret backslash escapes; the theorems below
restrict the covered values (no whitespace, glob characters or backslashes,
and no leading dash), and on that domain the command substitution returns the
stored value verbatim, which is what this model returns. -/
def lookupVal (env : List (String × String)) (n : String) : String :=
  ((env.find? (fun kv => kv.fst == n)).map Prod.snd).getD ""

/-- Characters of a value on which `eval echo` passes the value through
verbatim and the emitted line stays one well-formed JavaScript string: no
double quote or backslash (string syntax and escape processing), no IFS
whitespace (field splitting and line structure), no glob metacharacter
(pathname expansion of the unquoted expansion). -/
def safeValueChar (c : Char) : Bool :=
  !(c == '"') && !(c == '\\') && !(c == '\n') && !(c == '\t') && !(c == ' ')
    && !(c == '*') && !(c == '?') && !(c == '[')

/-- The name/value pairs written to the generated file, in emission order. -/
def selectedPairs (env : List (String × String)) : List (String × String) :=
  (selectedNames env).map (fun n => (n, lookupVal env n))

def headerLine : List Char := "window._env_ = \x7b".data

def footerLine : List Char := ['\x7d', ';']

def spaces4 : List Char := [' ', ' ', ' ', ' ']

def colonQuote : List Char := [':', ' ', '\"']

def quoteComma : List Char := ['\"', ',']

/-- One emitted line: `echo "    $var: \"$value\"," >> ...` (without the final
newline that `echo` appends). -/
def lineChars (name value : List Char) : List Char :=
  spaces4 ++ name ++ colonQuote ++ value ++ quoteComma

/-- The emitted entry lines, each terminated by the newline `echo` appends. -/
def fileBody : List (String × String) → List Char
  | [] => []
  | kv :: rest => lineChars kv.fst.data kv.snd.data ++ '\n' :: fileBody rest

/-- Full contents of `/var/www/app/config/front.env.js` as produced by
start.sh for a given environment. -/
def generatedFile (env : List (String × String)) : List Char :=
  headerLine ++ '\n' :: (fileBody (selectedPairs env) ++ (footerLine ++ ['\n']))

/-! ### A loader for the generated script

Modelled from the spec: the spec requires the emitted file to be
"syntactically loadable script" that "defines the global object with exactly
the whitelisted keys present in the environment".  The repository contains no
separate loader (the browser's JavaScript engine plays that role), so loading
is modelled by a parser that accepts exactly the JavaScript shape the
generator is supposed to emit — `window._env_ = ` followed by an object
literal of identifier keys and double-quoted string values — and returns the
defined key/value mapping, failing on anything else (in particular on an
unescaped quote, which would also be a JavaScript syntax error). -/

def isIdentChar (c : Char) : Bool := c.isAlphanum || c == '_'

def stripLeading (pre s : List Char) : Option (List Char) :=
  if startsWithL pre s = true then some (s.drop pre.length) else none

def parseEntry (line : List Char) : Option (String × String) :=
  match stripLeading spaces4 line with
  | none => none
  | some r1 =>
    let nm := r1.takeWhile isIdentChar
    let r2 := r1.dropWhile isIdentChar
    if nm.isEmpty then none
    else
      match stripLeading colonQuote r2 with
      | none => none
      | some r3 =>
        let vl := r3.takeWhile (fun c => !(c == '"'))
        let r4 := r3.dropWhile (fun c => !(c == '"'))
        if r4 == ['"', ','] then some (⟨nm⟩, ⟨vl⟩) else none

def parseBody : List (List Char) → Option (List (String × String))
  | [] => none
  | line :: rest =>
    if line == footerLine then
      if rest == ([[]] : List (List Char)) then some [] else none
    else
      match parseEntry line, parseBody rest with
      | some kv, some l => some (kv :: l)
      | _, _ => none

def parseEnvFile (s : List Char) : Option (List (String × String)) :=
  match splitLines s with
  | [] => none
  | first :: rest => if first == headerLine then parseBody rest else none

/-! ### The generated file parses back to the selected mapping -/

theorem splitLines_line (a r : List Char) (h : ∀ c ∈ a, ¬ c = '\n') :
    splitLines (a ++ '\n' :: r) = a :: splitLines r := by
  induction a with
  | nil => simp [splitLines]
  | cons c a ih =>
    have hc : ¬ c = '\n' := h c (by simp)
    have ih' := ih (fun x hx => h x (by simp [hx]))
    rw [List.cons_append]
    simp only [splitLines, if_neg hc, ih']

theorem stripLeading_append (pre r : List Char) : stripLeading pre (pre ++ r) = some r := by
  unfold stripLeading
  rw [if_pos (startsWithL_of_append pre r), drop_length_append]

theorem takeWhile_append_stop (p : Char → Bool) (x : Char) (hx : p x = false)
    (a r : List Char) (h : ∀ c ∈ a, p c = true) :
    (a ++ x :: r).takeWhile p = a ∧ (a ++ x :: r).dropWhile p = x :: r := by
  induction a with
  | nil => simp [List.takeWhile_cons, List.dropWhile_cons, hx]
  | cons c a ih =>
    have hc : p c = true := h c (by simp)
    have ih' := ih (fun y hy => h y (by simp [hy]))
    simp [List.takeWhile_cons, List.dropWhile_cons, hc, ih'.1, ih'.2]

theorem parseEntry_lineChars (n v : String)
    (hne : n.data ≠ [])
    (hn : ∀ c ∈ n.data, isIdentChar c = true)
    (hv : ∀ c ∈ v.data, ¬ c = '"') :
    parseEntry (lineChars n.data v.data) = some (n, v) := by
  have hform : lineChars n.data v.data
      = spaces4 ++ (n.data ++ (':' :: (' ' :: ('"' :: (v.data ++ ('"' :: [','])))))) := by
    simp [lineChars, colonQuote, quoteComma, List.append_assoc]
  have hname := takeWhile_append_stop isIdentChar ':' (by decide) n.data
    (' ' :: ('"' :: (v.data ++ ('"' :: [','])))) hn
  have hvalmem : ∀ c ∈ v.data, (fun c => !(c == '"')) c = true := by
    intro c hc
    simpa using hv c hc
  have hval := takeWhile_append_stop (fun c => !(c == '"')) '"' (by decide) v.data
    [','] hvalmem
  have hempty : (n.data).isEmpty = false := by
    cases hd : n.data with
    | nil => exact absurd hd hne
    | cons c cs => rfl
  rw [hform]
  unfold parseEntry
  rw [stripLeading_append]
  simp only []
  rw [hname.1, hname.2]
  rw [if_neg (by simp [hempty] : ¬ (n.data).isEmpty = true)]
  have hcq : (':' :: (' ' :: ('"' :: (v.data ++ ('"' :: [','])))) : List Char)
      = colonQuote ++ (v.data ++ ('"' :: [','])) := rfl
  rw [hcq, stripLeading_append]
  simp only []
  rw [hval.1, hval.2]
  rfl

theorem lineChars_no_newline (n v : List Char)
    (hn : ∀ c ∈ n, isIdentChar c = true) (hv : ∀ c ∈ v, ¬ c = '\n') :
    ∀ c ∈ lineChars n v, ¬ c = '\n' := by
  intro c hc
  simp only [lineChars, List.append_assoc, List.mem_append] at hc
  rcases hc with h | h | h | h | h
  · intro he
    subst he
    revert h
    decide
  · intro he
    subst he
    exact absurd (hn _ h) (by decide)
  · intro he
    subst he
    revert h
    decide
  · intro he
    subst he
    exact hv _ h rfl
  · intro he
    subst he
    revert h
    decide

theorem parseBody_fileBody :
    ∀ (l : List (String × String)),
      (∀ kv ∈ l, kv.fst.data ≠ [] ∧ (∀ c ∈ kv.fst.data, isIdentChar c = true) ∧
        (∀ c ∈ kv.snd.data, ¬ c = '"' ∧ ¬ c = '\n')) →
      parseBody (splitLines (fileBody l ++ (footerLine ++ ['\n']))) = some l := by
  intro l
  induction l with
  | nil =>
    intro _
    have h1 : fileBody [] ++ (footerLine ++ ['\n']) = footerLine ++ '\n' :: [] := by
      simp [fileBody]
    rw [h1, splitLines_line _ _ (by decide)]
    rfl
  | cons kv rest ih =>
    intro h
    obtain ⟨hne, hid, hval⟩ := h kv (by simp)
    have hrest : ∀ kv2 ∈ rest, kv2.fst.data ≠ [] ∧
        (∀ c ∈ kv2.fst.data, isIdentChar c = true) ∧
        (∀ c ∈ kv2.snd.data, ¬ c = '"' ∧ ¬ c = '\n') :=
      fun kv2 hkv2 => h kv2 (by simp [hkv2])
    have hln : ∀ c ∈ lineChars kv.fst.data kv.snd.data, ¬ c = '\n' :=
      lineChars_no_newline _ _ hid (fun c hc => (hval c hc).2)
    have hshape : fileBody (kv :: rest) ++ (footerLine ++ ['\n'])
        = lineChars kv.fst.data kv.snd.data
            ++ '\n' :: (fileBody rest ++ (footerLine ++ ['\n'])) := by
      simp [fileBody, List.append_assoc]
    rw [hshape, splitLines_line _ _ hln]
    have hfoot : (lineChars kv.fst.data kv.snd.data == footerLine) = false := rfl
    unfold parseBody
    rw [if_neg (by simp [hfoot] : ¬ (lineChars kv.fst.data kv.snd.data == footerLine) = true)]
    rw [parseEntry_lineChars kv.fst kv.snd hne hid (fun c hc => (hval c hc).1), ih hrest]

theorem parseEnvFile_generatedFile (env : List (String × String))
    (h : ∀ kv ∈ selectedPairs env, kv.fst.data ≠ [] ∧
      (∀ c ∈ kv.fst.data, isIdentChar c = true) ∧
      (∀ c ∈ kv.snd.data, ¬ c = '"' ∧ ¬ c = '\n')) :
    parseEnvFile (generatedFile env) = some (selectedPairs env) := by
  unfold generatedFile parseEnvFile
  rw [splitLines_line _ _ (by decide)]
  simp only [beq_self_eq_true, if_true]
  exact parseBody_fileBody _ h

/-! ### Line-based selection coincides with name-prefix selection on
newline-free environments -/

theorem splitLines_ne_nil : ∀ (s : List Char), splitLines s ≠ [] := by
  intro s
  cases s with
  | nil => simp [splitLines]
  | cons c cs =>
    by_cases hc : c = '\n'
    · simp [splitLines, hc]
    · cases hsp : splitLines cs with
      | nil => simp [splitLines, hc, hsp]
      | cons l ls => simp [splitLines, hc, hsp]

theorem envOutputLines_eq (env : List (String × String))
    (h : ∀ kv ∈ env, (∀ c ∈ kv.fst.data, ¬ c = '\n') ∧ (∀ c ∈ kv.snd.data, ¬ c = '\n')) :
    envOutputLines env = env.map (fun kv => kv.fst.data ++ '=' :: kv.snd.data) := by
  induction env with
  | nil => rfl
  | cons kv rest ih =>
    obtain ⟨hn, hv⟩ := h kv (by simp)
    have hrest : ∀ kv2 ∈ rest, (∀ c ∈ kv2.fst.data, ¬ c = '\n') ∧
        (∀ c ∈ kv2.snd.data, ¬ c = '\n') :=
      fun kv2 hk => h kv2 (by simp [hk])
    have hline : ∀ c ∈ kv.fst.data ++ '=' :: kv.snd.data, ¬ c = '\n' := by
      intro c hc
      rcases List.mem_append.mp hc with h1 | h2
      · exact hn c h1
      · rcases List.mem_cons.mp h2 with he | h3
        · subst he
          decide
        · exact hv c h3
    have hshape : envText (kv :: rest)
        = (kv.fst.data ++ '=' :: kv.snd.data) ++ '\n' :: envText rest := by
      simp [envText, List.append_assoc]
    unfold envOutputLines
    rw [hshape, splitLines_line _ _ hline,
      List.dropLast_cons_of_ne_nil (splitLines_ne_nil _)]
    rw [show (splitLines (envText rest)).dropLast = envOutputLines rest from rfl, ih hrest]
    rfl

theorem startsWithL_env_line (w name value : List Char) (hw : ¬ '=' ∈ w) :
    startsWithL w (name ++ '=' :: value) = startsWithL w name := by
  by_cases hl : w.length ≤ name.length
  · exact startsWithL_append_right w name ('=' :: value) hl
  · rw [show startsWithL w name = false from startsWithL_of_short (by omega)]
    by_cases hm : startsWithL w (name ++ '=' :: value) = true
    · obtain ⟨t, ht⟩ := exists_of_startsWithL hm
      have hd : '=' :: value = w.drop name.length ++ t :=
        append_eq_of_short name ht (by omega)
      cases hdrop : w.drop name.length with
      | nil =>
        have hlen := congrArg List.length hdrop
        simp [List.length_drop] at hlen
        omega
      | cons d ds =>
        rw [hdrop] at hd
        simp only [List.cons_append, List.cons.injEq] at hd
        have hdm : d ∈ w.drop name.length := by
          rw [hdrop]
          simp
        have hmem : '=' ∈ w := by
          rw [hd.1]
          exact List.drop_subset _ _ hdm
        exact absurd hmem hw
    · simpa using hm

theorem grepAwkNames_of_lines (w : List Char) (hw : ¬ '=' ∈ w) :
    ∀ (env : List (String × String)),
      (∀ kv ∈ env, ∀ c ∈ kv.fst.data, ¬ c = '=') →
      (grepAwkNames w (env.map (fun kv => kv.fst.data ++ '=' :: kv.snd.data))).map String.mk
        = (env.map Prod.fst).filter (fun n => startsWithL w n.data) := by
  intro env h
  induction env with
  | nil => rfl
  | cons kv rest ih =>
    have hkv : ∀ c ∈ kv.fst.data, ¬ c = '=' := h kv (by simp)
    have hrest : ∀ kv2 ∈ rest, ∀ c ∈ kv2.fst.data, ¬ c = '=' :=
      fun kv2 hk => h kv2 (by simp [hk])
    have hline := startsWithL_env_line w kv.fst.data kv.snd.data hw
    have htake : (kv.fst.data ++ '=' :: kv.snd.data).takeWhile (fun c => !(c == '='))
        = kv.fst.data :=
      (takeWhile_append_stop (fun c => !(c == '=')) '=' (by decide) kv.fst.data kv.snd.data
        (fun c hc => by simpa using hkv c hc)).1
    have ihx := ih hrest
    by_cases hsw : startsWithL w kv.fst.data = true
    · simp [grepAwkNames, List.filter_cons, hline, hsw, htake, ihx] at ihx ⊢
      simpa [grepAwkNames] using ihx
    · have hswf : startsWithL w kv.fst.data = false := by simpa using hsw
      simp [grepAwkNames, List.filter_cons, hline, hswf] at ihx ⊢
      simpa [grepAwkNames] using ihx

theorem selectedNames_eq_filter (env : List (String × String))
    (h : ∀ kv ∈ env, (∀ c ∈ kv.fst.data, ¬ c = '\n' ∧ ¬ c = '=') ∧
      (∀ c ∈ kv.snd.data, ¬ c = '\n')) :
    selectedNames env
      = (envVarsList.map
          (fun w => (env.map Prod.fst).filter (fun n => startsWithL w.data n.data))).flatten := by
  have hlines : envOutputLines env = env.map (fun kv => kv.fst.data ++ '=' :: kv.snd.data) :=
    envOutputLines_eq env
      (fun kv hk => ⟨fun c hc => ((h kv hk).1 c hc).1, (h kv hk).2⟩)
  unfold selectedNames
  rw [hlines]
  congr 1
  apply List.map_congr_left
  intro w hwmem
  have hw : ¬ '=' ∈ w.data := by
    simp only [envVarsList, List.mem_cons, List.not_mem_nil, or_false] at hwmem
    rcases hwmem with rfl | rfl
    · decide
    · decide
  exact grepAwkNames_of_lines w.data hw env
    (fun kv hk c hc => ((h kv hk).1 c hc).2)

/-- The selection is genuinely line-based in this model, as in start.sh: an
embedded newline in the value of a variable matching no whitelist entry still
injects a grep-matched line, so a key is emitted that is not the name of any
variable of the environment, and its `eval echo` value is the empty string of
an unset name. -/
theorem selectedNames_line_injection :
    selectedNames [("HOME", "x\nSTAGEY=1")] = ["STAGEY"] ∧
      lookupVal [("HOME", "x\nSTAGEY=1")] "STAGEY" = "" := by
  constructor
  · decide
  · decide

/-- Example environment: the repository's docker-compose sets `STAGE=QAS` and
`API_URL=http://example.qas.com/api`; `HOME` stands for an unrelated variable
that every container environment also carries. -/
def demoEnv : List (String × String) :=
  [("STAGE", "QAS"), ("API_URL", "http://example.qas.com/api"), ("HOME", "/root")]

/-- C1 fails as stated: with `STAGE` set to a value containing a double quote,
the whitelisted key `STAGE` is present in the environment, yet the generated
file is not loadable script — the unescaped quote terminates the JavaScript
string early, a syntax error, so the loader rejects the file instead of
defining the object with key `STAGE`. -/
theorem generator_loadable_counterexample :
    selectedNames [("STAGE", "say \"hi\"")] = ["STAGE"] ∧
      parseEnvFile (generatedFile [("STAGE", "say \"hi\"")]) = none := by
  constructor
  · decide
  · decide

/-- C1 (amended): consider an environment mapping in which no variable's name
or value contains a newline and no name contains `=` (so the `env` listing
has one line per variable and the line-based selection selects exactly the
whitelist-prefixed variable names), the selected names are nonempty and
identifier-like (alphanumeric/underscore), and the selected values contain
only safe characters — no double quote, backslash, whitespace or glob
metacharacter, on which `eval echo` is the identity — and do not begin with a
dash.  For every such environment the generated startup file is syntactically
loadable script defining the global configuration object with exactly the
whitelist-prefix-matched keys of the environment and no others — in
particular the empty object when zero variables match. -/
theorem generator_emits_loadable_config (env : List (String × String))
    (hline : ∀ kv ∈ env, (∀ c ∈ kv.fst.data, ¬ c = '\n' ∧ ¬ c = '=') ∧
      (∀ c ∈ kv.snd.data, ¬ c = '\n'))
    (hnames : ∀ kv ∈ selectedPairs env, kv.fst.data ≠ [] ∧
      ∀ c ∈ kv.fst.data, isIdentChar c = true)
    (hvals : ∀ kv ∈ selectedPairs env,
      (∀ c ∈ kv.snd.data, safeValueChar c = true) ∧ kv.snd.data.head? ≠ some '-') :
    parseEnvFile (generatedFile env) = some (selectedPairs env) ∧
      (selectedPairs env).map Prod.fst = selectedNames env ∧
      selectedNames env
        = (envVarsList.map
            (fun w => (env.map Prod.fst).filter (fun n => startsWithL w.data n.data))).flatten := by
  refine ⟨?_, ?_, selectedNames_eq_filter env hline⟩
  · apply parseEnvFile_generatedFile
    intro kv hkv
    refine ⟨(hnames kv hkv).1, (hnames kv hkv).2, fun c hc => ?_⟩
    have hs := (hvals kv hkv).1 c hc
    constructor
    · intro he
      subst he
      revert hs
      decide
    · intro he
      subst he
      revert hs
      decide
  · simp only [selectedPairs, List.map_map]
    rw [show (Prod.fst ∘ fun n => (n, lookupVal env n)) = id from rfl, List.map_id]

theorem generator_emits_loadable_config_witness :
    selectedPairs demoEnv = [("STAGE", "QAS"), ("API_URL", "http://example.qas.com/api")] ∧
      parseEnvFile (generatedFile []) = some (selectedPairs []) ∧
      (parseEnvFile (generatedFile demoEnv) = some (selectedPairs demoEnv) ∧
        (selectedPairs demoEnv).map Prod.fst = selectedNames demoEnv ∧
        selectedNames demoEnv
          = (envVarsList.map
              (fun w => (demoEnv.map Prod.fst).filter
                (fun n => startsWithL w.data n.data))).flatten) :=
  ⟨by decide, (generator_emits_loadable_config [] (by decide) (by decide) (by decide)).1,
    generator_emits_loadable_config demoEnv (by decide) (by decide) (by decide)⟩

/-! ### The generator as a sequence of filesystem writes

start.sh touches the output file through one truncating redirection
(`echo 'window._env_ = ...' > ...front.env.js`) followed by appending
redirections (`>> ...front.env.js`), one per entry line and one for the
closing brace. -/

inductive WriteOp where
  | trunc : List Char → WriteOp
  | append : List Char → WriteOp

/-- Effect of one shell redirection on the current file contents. -/
def applyWrite (file : List Char) : WriteOp → List Char
  | WriteOp.trunc s => s
  | WriteOp.append s => file ++ s

def runWrites (ops : List WriteOp) (file : List Char) : List Char :=
  ops.foldl applyWrite file

/-- The exact sequence of redirections start.sh performs on
`/var/www/app/config/front.env.js`, in program order. -/
def scriptWrites (env : List (String × String)) : List WriteOp :=
  WriteOp.trunc (headerLine ++ ['\n'])
    :: ((selectedPairs env).map
          (fun kv => WriteOp.append (lineChars kv.fst.data kv.snd.data ++ ['\n']))
        ++ [WriteOp.append (footerLine ++ ['\n'])])

theorem runWrites_appends (z : List Char) :
    ∀ (l : List (String × String)) (f : List Char),
      runWrites ((l.map
          (fun kv => WriteOp.append (lineChars kv.fst.data kv.snd.data ++ ['\n'])))
        ++ [WriteOp.append z]) f
      = f ++ (fileBody l ++ z) := by
  intro l
  induction l with
  | nil => intro f; simp [runWrites, applyWrite, fileBody]
  | cons kv rest ih =>
    intro f
    have hstep :
        runWrites ((((kv :: rest).map
            (fun kv => WriteOp.append (lineChars kv.fst.data kv.snd.data ++ ['\n'])))
          ++ [WriteOp.append z])) f
        = runWrites (((rest.map
            (fun kv => WriteOp.append (lineChars kv.fst.data kv.snd.data ++ ['\n'])))
          ++ [WriteOp.append z])) (f ++ (lineChars kv.fst.data kv.snd.data ++ ['\n'])) :=
      rfl
    rw [hstep, ih]
    simp [fileBody, List.append_assoc]

/-- Whatever the file held before, one full run of the generator's write
sequence leaves the file holding exactly the generated contents: the first
write truncates, so no prior content survives. -/
theorem runWrites_scriptWrites (env : List (String × String)) (prior : List Char) :
    runWrites (scriptWrites env) prior = generatedFile env := by
  have h0 : runWrites (scriptWrites env) prior
      = runWrites ((selectedPairs env).map
            (fun kv => WriteOp.append (lineChars kv.fst.data kv.snd.data ++ ['\n']))
          ++ [WriteOp.append (footerLine ++ ['\n'])]) (headerLine ++ ['\n']) := rfl
  rw [h0, runWrites_appends]
  simp [generatedFile]

/-- C5: the startup generator is idempotent and fully overwrites: two runs with
the same environment produce byte-identical files regardless of what the output
file previously held (so nothing is merged or appended to prior content), and
each run leaves exactly the generated contents. -/
theorem generator_idempotent_full_overwrite (env : List (String × String))
    (prior₁ prior₂ : List Char) :
    runWrites (scriptWrites env) prior₁ = runWrites (scriptWrites env) prior₂ ∧
      runWrites (scriptWrites env) prior₁ = generatedFile env := by
  constructor
  · rw [runWrites_scriptWrites, runWrites_scriptWrites]
  · exact runWrites_scriptWrites env prior₁

/-! ### The startup sequence as executed by /bin/sh

start.sh contains no `set -e`, no conditionals and no exit-status checks: in
POSIX sh each command of the script runs in order and a failing command
(including a failed redirection) merely sets the exit status before the next
command runs.  `mkdir -p` and the `echo` status messages do not touch the
output file; the script ends by invoking nginx unconditionally. -/

inductive Cmd where
  | echoMsg
  | mkdirCfg
  | fileWrite : WriteOp → Cmd
  | startNginx

structure ShellState where
  file : Option (List Char)
  serverStarted : Bool
  fileAtServerStart : Option (List Char)

def initShellState : ShellState :=
  { file := none, serverStarted := false, fileAtServerStart := none }

/-- One command step.  `failed` tells whether this command's filesystem action
fails; without `set -e` the script continues either way.  A failed redirection
leaves the file as it was; `startNginx` records the file contents visible at
the moment the server is started. -/
def runCmd (failed : Bool) (st : ShellState) : Cmd → ShellState
  | Cmd.echoMsg => st
  | Cmd.mkdirCfg => st
  | Cmd.fileWrite op =>
    if failed = true then st
    else { st with file := some (applyWrite (st.file.getD []) op) }
  | Cmd.startNginx => { st with serverStarted := true, fileAtServerStart := st.file }

def runCmds (fail : Nat → Bool) : Nat → ShellState → List Cmd → ShellState
  | _, st, [] => st
  | i, st, c :: cs => runCmds fail (i + 1) (runCmd (fail i) st c) cs

/-- start.sh in program order: status message, `mkdir -p`, the redirections
building front.env.js, the second status message, and finally
`nginx -g "daemon off;"`. -/
def startScript (env : List (String × String)) : List Cmd :=
  (Cmd.echoMsg :: Cmd.mkdirCfg :: ((scriptWrites env).map Cmd.fileWrite ++ [Cmd.echoMsg]))
    ++ [Cmd.startNginx]

/-- A full run of start.sh under a failure pattern `fail` (command `i` of the
script suffers a filesystem failure iff `fail i = true`). -/
def runScript (env : List (String × String)) (fail : Nat → Bool) : ShellState :=
  runCmds fail 0 initShellState (startScript env)

theorem runCmds_append (fail : Nat → Bool) :
    ∀ (xs ys : List Cmd) (i : Nat) (st : ShellState),
      runCmds fail i st (xs ++ ys)
        = runCmds fail (i + xs.length) (runCmds fail i st xs) ys := by
  intro xs
  induction xs with
  | nil => intro ys i st; rfl
  | cons c cs ih =>
    intro ys i st
    have hstep : runCmds fail i st ((c :: cs) ++ ys)
        = runCmds fail (i + 1) (runCmd (fail i) st c) (cs ++ ys) := rfl
    rw [hstep, ih]
    have hidx : i + 1 + cs.length = i + (c :: cs).length := by
      simp [List.length_cons]
      omega
    rw [hidx]
    rfl

theorem runCmds_last_nginx (fail : Nat → Bool) :
    ∀ (cmds : List Cmd) (i : Nat) (st : ShellState),
      (runCmds fail i st (cmds ++ [Cmd.startNginx])).serverStarted = true := by
  intro cmds
  induction cmds with
  | nil => intro i st; rfl
  | cons c cs ih => intro i st; exact ih (i + 1) _

theorem runCmds_ok_writes (fail : Nat → Bool) (h : ∀ i, fail i = false) :
    ∀ (ops : List WriteOp) (i : Nat) (st : ShellState) (f : List Char),
      st.file = some f →
      runCmds fail i st (ops.map Cmd.fileWrite)
        = { st with file := some (runWrites ops f) } := by
  intro ops
  induction ops with
  | nil =>
    intro i st f hf
    show st = { st with file := some (runWrites [] f) }
    rw [show runWrites [] f = f from rfl, ← hf]
  | cons op rest ih =>
    intro i st f hf
    have hstep : runCmds fail i st ((op :: rest).map Cmd.fileWrite)
        = runCmds fail (i + 1) (runCmd (fail i) st (Cmd.fileWrite op))
            (rest.map Cmd.fileWrite) := rfl
    rw [hstep, h i]
    have hcmd : runCmd false st (Cmd.fileWrite op)
        = { st with file := some (applyWrite f op) } := by
      simp [runCmd, hf]
    rw [hcmd, ih (i + 1) _ (applyWrite f op) rfl]
    rfl

/-- With no filesystem failures, a full run of start.sh starts the server with
the generated file fully written and visible. -/
theorem runScript_ok (env : List (String × String)) (fail : Nat → Bool)
    (h : ∀ i, fail i = false) :
    runScript env fail
      = { file := some (generatedFile env), serverStarted := true,
          fileAtServerStart := some (generatedFile env) } := by
  unfold runScript startScript
  have h2 : runCmds fail 0 initShellState
      ((Cmd.echoMsg :: Cmd.mkdirCfg
          :: ((scriptWrites env).map Cmd.fileWrite ++ [Cmd.echoMsg])) ++ [Cmd.startNginx])
      = runCmds fail 2 initShellState
          (((scriptWrites env).map Cmd.fileWrite ++ [Cmd.echoMsg]) ++ [Cmd.startNginx]) := by
    show runCmds fail 2
        (runCmd (fail 1) (runCmd (fail 0) initShellState Cmd.echoMsg) Cmd.mkdirCfg) _
      = _
    rfl
  rw [h2, List.append_assoc]
  have hw : (scriptWrites env).map Cmd.fileWrite
      = Cmd.fileWrite (WriteOp.trunc (headerLine ++ ['\n']))
          :: (((selectedPairs env).map
                (fun kv => WriteOp.append (lineChars kv.fst.data kv.snd.data ++ ['\n']))
              ++ [WriteOp.append (footerLine ++ ['\n'])]).map Cmd.fileWrite) := by
    simp [scriptWrites]
  rw [hw]
  have h3 : runCmds fail 2 initShellState
      ((Cmd.fileWrite (WriteOp.trunc (headerLine ++ ['\n']))
          :: (((selectedPairs env).map
                (fun kv => WriteOp.append (lineChars kv.fst.data kv.snd.data ++ ['\n']))
              ++ [WriteOp.append (footerLine ++ ['\n'])]).map Cmd.fileWrite))
        ++ ([Cmd.echoMsg] ++ [Cmd.startNginx]))
      = runCmds fail 3
          (runCmd (fail 2) initShellState
            (Cmd.fileWrite (WriteOp.trunc (headerLine ++ ['\n']))))
          ((((selectedPairs env).map
                (fun kv => WriteOp.append (lineChars kv.fst.data kv.snd.data ++ ['\n']))
              ++ [WriteOp.append (footerLine ++ ['\n'])]).map Cmd.fileWrite)
            ++ ([Cmd.echoMsg] ++ [Cmd.startNginx])) := rfl
  rw [h3, h 2]
  have hcmd : runCmd false initShellState
      (Cmd.fileWrite (WriteOp.trunc (headerLine ++ ['\n'])))
      = { initShellState with file := some (headerLine ++ ['\n']) } := rfl
  rw [hcmd]
  rw [runCmds_append fail]
  rw [runCmds_ok_writes fail h _ 3 _ (headerLine ++ ['\n']) rfl]
  have hfile : runWrites ((selectedPairs env).map
        (fun kv => WriteOp.append (lineChars kv.fst.data kv.snd.data ++ ['\n']))
      ++ [WriteOp.append (footerLine ++ ['\n'])]) (headerLine ++ ['\n'])
      = generatedFile env := by
    rw [runWrites_appends]
    simp [generatedFile]
  rw [hfile]
  rfl

/-- C2 fails as stated: run start.sh with every filesystem write failing (for
example, a read-only filesystem).  The configuration file is never created,
yet the script still starts nginx — the server serves with the configuration
absent instead of the process aborting before serving. -/
theorem write_failure_abort_counterexample :
    (runScript demoEnv (fun _ => true)).serverStarted = true ∧
      (runScript demoEnv (fun _ => true)).fileAtServerStart = none := by
  constructor
  · rfl
  · rfl

/-- C2 (amended): start.sh has no error handling (no `set -e`, no exit-status
check), so a filesystem write failure during startup does not abort the
process: whatever subset of the writes fails, execution continues and the
server is started anyway, potentially serving stale or absent configuration. -/
theorem write_failure_never_aborts (env : List (String × String)) (fail : Nat → Bool) :
    (runScript env fail).serverStarted = true := by
  unfold runScript startScript
  exact runCmds_last_nginx fail _ 0 initShellState

/-- C8 fails as stated: the claim quantifies over every execution of the
startup sequence, but in the execution where the filesystem writes fail the
server still starts, and it starts with the configuration file not existing —
so it is not true of every execution that the file's write completes, and the
file exists, before the server starts. -/
theorem server_start_order_counterexample :
    (runScript [("STAGE", "QAS")] (fun _ => true)).serverStarted = true ∧
      (runScript [("STAGE", "QAS")] (fun _ => true)).fileAtServerStart = none := by
  constructor
  · rfl
  · rfl

/-- C8 (amended): in every execution of the startup sequence in which the
filesystem writes succeed, the generated configuration file's write completes
before the main server begins accepting connections: start.sh is sequential,
every write precedes the nginx invocation, and the file contents visible at
the moment the server starts are exactly the full generated file.  (In an
execution with a failing write the server may start without the file, the
behaviour settled under C2.) -/
theorem write_completes_before_server_starts (env : List (String × String))
    (fail : Nat → Bool) (h : ∀ i, fail i = false) :
    (runScript env fail).serverStarted = true ∧
      (runScript env fail).fileAtServerStart = some (generatedFile env) := by
  rw [runScript_ok env fail h]
  exact ⟨rfl, rfl⟩

theorem write_completes_before_server_starts_witness :
    (runScript demoEnv (fun _ => false)).serverStarted = true ∧
      (runScript demoEnv (fun _ => false)).fileAtServerStart
        = some (generatedFile demoEnv) :=
  write_completes_before_server_starts demoEnv (fun _ => false) (fun _ => rfl)

/-! ### Runtime accessors (src/config/constants.ts)

`export const STAGE = import.meta.env.STAGE ?? window._env_.STAGE;` and
likewise for `API_URL` and (in `src/config/constants.ts`) `ENV_TEST`.
JavaScript values relevant here are `undefined`, `null` and strings; `a ?? b`
evaluates to `b` exactly when `a` is `null` or `undefined`, and property
access on the runtime configuration object yields `undefined` for a missing
key.  The build-time source `import.meta.env` is modelled as an arbitrary
assignment of such a value to each key. -/

inductive JSVal where
  | undef : JSVal
  | null : JSVal
  | str : String → JSVal
deriving DecidableEq

/-- Returns `true` exactly for `null` and `undefined` (the values `??` falls back on). -/
def JSVal.nullish : JSVal → Bool
  | JSVal.undef => true
  | JSVal.null => true
  | JSVal.str _ => false

/-- JavaScript nullish coalescing `a ?? b`. -/
def nullishCoalesce (a b : JSVal) : JSVal :=
  match a with
  | JSVal.undef => b
  | JSVal.null => b
  | JSVal.str s => JSVal.str s

/-- Property access `window._env_.k` on the runtime configuration object:
the stored string, or `undefined` when the key is absent. -/
def windowEnvGet (obj : List (String × String)) (k : String) : JSVal :=
  match obj.find? (fun kv => kv.fst == k) with
  | some kv => JSVal.str kv.snd
  | none => JSVal.undef

/-- Accessor `export const STAGE = import.meta.env.STAGE ?? window._env_.STAGE;` -/
def STAGE (importMetaEnv : String → JSVal) (windowEnv : List (String × String)) : JSVal :=
  nullishCoalesce (importMetaEnv "STAGE") (windowEnvGet windowEnv "STAGE")

/-- Accessor `export const API_URL = import.meta.env.API_URL ?? window._env_.API_URL;` -/
def API_URL (importMetaEnv : String → JSVal) (windowEnv : List (String × String)) : JSVal :=
  nullishCoalesce (importMetaEnv "API_URL") (windowEnvGet windowEnv "API_URL")

/-- Accessor `export const ENV_TEST = import.meta.env.ENV_TEST ?? window._env_.ENV_TEST;` -/
def ENV_TEST (importMetaEnv : String → JSVal) (windowEnv : List (String × String)) : JSVal :=
  nullishCoalesce (importMetaEnv "ENV_TEST") (windowEnvGet windowEnv "ENV_TEST")

/-- C3: each exported accessor returns the build-time-embedded value whenever
one is provided (a string), and otherwise — when the build-time source yields
`null` or `undefined` — the corresponding entry of the runtime-injected
global configuration object; build-time values take precedence. -/
theorem accessor_precedence (b : String → JSVal) (obj : List (String × String)) :
    (∀ s, b "STAGE" = JSVal.str s → STAGE b obj = JSVal.str s) ∧
      ((b "STAGE").nullish = true → STAGE b obj = windowEnvGet obj "STAGE") ∧
      (∀ s, b "API_URL" = JSVal.str s → API_URL b obj = JSVal.str s) ∧
      ((b "API_URL").nullish = true → API_URL b obj = windowEnvGet obj "API_URL") ∧
      (∀ s, b "ENV_TEST" = JSVal.str s → ENV_TEST b obj = JSVal.str s) ∧
      ((b "ENV_TEST").nullish = true → ENV_TEST b obj = windowEnvGet obj "ENV_TEST") := by
  refine ⟨?_, ?_, ?_, ?_, ?_, ?_⟩
  · intro s hs
    simp [STAGE, nullishCoalesce, hs]
  · intro hs
    cases hb : b "STAGE" with
    | undef => simp [STAGE, nullishCoalesce, hb]
    | null => simp [STAGE, nullishCoalesce, hb]
    | str s => simp [hb, JSVal.nullish] at hs
  · intro s hs
    simp [API_URL, nullishCoalesce, hs]
  · intro hs
    cases hb : b "API_URL" with
    | undef => simp [API_URL, nullishCoalesce, hb]
    | null => simp [API_URL, nullishCoalesce, hb]
    | str s => simp [hb, JSVal.nullish] at hs
  · intro s hs
    simp [ENV_TEST, nullishCoalesce, hs]
  · intro hs
    cases hb : b "ENV_TEST" with
    | undef => simp [ENV_TEST, nullishCoalesce, hb]
    | null => simp [ENV_TEST, nullishCoalesce, hb]
    | str s => simp [hb, JSVal.nullish] at hs

theorem accessor_precedence_witness :
    STAGE (fun k => if k == "STAGE" then JSVal.str "QAS" else JSVal.undef)
        [("API_URL", "http://example.qas.com/api")] = JSVal.str "QAS" ∧
      API_URL (fun k => if k == "STAGE" then JSVal.str "QAS" else JSVal.undef)
        [("API_URL", "http://example.qas.com/api")]
        = JSVal.str "http://example.qas.com/api" := by
  constructor
  · exact (accessor_precedence _ _).1 "QAS" rfl
  · have h := (accessor_precedence
      (fun k => if k == "STAGE" then JSVal.str "QAS" else JSVal.undef)
      [("API_URL", "http://example.qas.com/api")]).2.2.2.1 rfl
    rw [h]
    decide

/-- C6: for a configuration key provided by neither source — the build-time
value is nullish and the runtime configuration object has no entry for the
key — the accessor evaluates to `undefined`; being a total function of the
two sources, it returns this value rather than raising an error. -/
theorem accessor_missing_key (b : String → JSVal) (obj : List (String × String)) :
    ((b "STAGE").nullish = true → obj.find? (fun kv => kv.fst == "STAGE") = none →
      STAGE b obj = JSVal.undef) ∧
      ((b "API_URL").nullish = true → obj.find? (fun kv => kv.fst == "API_URL") = none →
        API_URL b obj = JSVal.undef) ∧
      ((b "ENV_TEST").nullish = true → obj.find? (fun kv => kv.fst == "ENV_TEST") = none →
        ENV_TEST b obj = JSVal.undef) := by
  refine ⟨?_, ?_, ?_⟩
  · intro hb hf
    cases hv : b "STAGE" with
    | undef => simp [STAGE, nullishCoalesce, windowEnvGet, hv, hf]
    | null => simp [STAGE, nullishCoalesce, windowEnvGet, hv, hf]
    | str s => simp [hv, JSVal.nullish] at hb
  · intro hb hf
    cases hv : b "API_URL" with
    | undef => simp [API_URL, nullishCoalesce, windowEnvGet, hv, hf]
    | null => simp [API_URL, nullishCoalesce, windowEnvGet, hv, hf]
    | str s => simp [hv, JSVal.nullish] at hb
  · intro hb hf
    cases hv : b "ENV_TEST" with
    | undef => simp [ENV_TEST, nullishCoalesce, windowEnvGet, hv, hf]
    | null => simp [ENV_TEST, nullishCoalesce, windowEnvGet, hv, hf]
    | str s => simp [hv, JSVal.nullish] at hb

theorem accessor_missing_key_witness :
    STAGE (fun _ => JSVal.undef) [] = JSVal.undef ∧
      API_URL (fun _ => JSVal.undef) [] = JSVal.undef ∧
      ENV_TEST (fun _ => JSVal.undef) [] = JSVal.undef :=
  ⟨(accessor_missing_key (fun _ => JSVal.undef) []).1 rfl rfl,
    (accessor_missing_key (fun _ => JSVal.undef) []).2.1 rfl rfl,
    (accessor_missing_key (fun _ => JSVal.undef) []).2.2 rfl rfl⟩

/-- C9: when the build-time source supplies the empty string, each accessor
returns the empty string without consulting the runtime configuration object
(the object is universally quantified, so its contents cannot matter):
`??` falls back only on `null`/`undefined`, never on other falsy values. -/
theorem accessor_empty_string_no_fallback (b : String → JSVal)
    (obj : List (String × String)) :
    (b "STAGE" = JSVal.str "" → STAGE b obj = JSVal.str "") ∧
      (b "API_URL" = JSVal.str "" → API_URL b obj = JSVal.str "") ∧
      (b "ENV_TEST" = JSVal.str "" → ENV_TEST b obj = JSVal.str "") := by
  refine ⟨?_, ?_, ?_⟩
  · intro hb
    simp [STAGE, nullishCoalesce, hb]
  · intro hb
    simp [API_URL, nullishCoalesce, hb]
  · intro hb
    simp [ENV_TEST, nullishCoalesce, hb]

theorem accessor_empty_string_no_fallback_witness :
    windowEnvGet [("STAGE", "QAS")] "STAGE" = JSVal.str "QAS" ∧
      STAGE (fun _ => JSVal.str "") [("STAGE", "QAS")] = JSVal.str "" :=
  ⟨by decide,
    (accessor_empty_string_no_fallback (fun _ => JSVal.str "") [("STAGE", "QAS")]).1 rfl⟩
